import Mathlib

/-!
Verification of the tab-strip title control
(`src/vs/workbench/browser/parts/editor2/nextTabsTitleControl.ts`).

The development shallowly embeds the label-deduplication algorithm
(`shortenTabLabels`, `getLabelConfigFlags`), the deferred scroll-reveal
layout (`doLayout`), the label splice of `moveEditor` and the drop
handling (`onDrop`) as executable Lean functions, and proves the
spec-level properties about them.
-/

namespace NextTabs

set_option autoImplicit false

universe u

/-! ### Generic list helpers (JS array semantics) -/

/-- JS `Array.prototype.splice(n, 0, x)`: insert `x` at position `n`,
appending when `n` is at or beyond the length. -/
def insertAt {α : Type u} (n : Nat) (x : α) (l : List α) : List α :=
  l.take n ++ x :: l.drop n

theorem insertAt_nil {α : Type u} (n : Nat) (x : α) : insertAt n x [] = [x] := by
  simp [insertAt]

theorem insertAt_zero {α : Type u} (x : α) (l : List α) : insertAt 0 x l = x :: l := by
  simp [insertAt]

theorem insertAt_succ_cons {α : Type u} (n : Nat) (x a : α) (l : List α) :
    insertAt (n + 1) x (a :: l) = a :: insertAt n x l := by
  simp [insertAt]

/-- Re-inserting the removed element at its old position restores the list. -/
theorem insertAt_eraseIdx_self {α : Type u} (d : α) :
    ∀ (l : List α) (i : Nat), i < l.length →
      insertAt i (l.getD i d) (l.eraseIdx i) = l
  | [], i, h => by simp at h
  | a :: t, 0, _ => by simp [insertAt]
  | a :: t, i + 1, h => by
      have ih := insertAt_eraseIdx_self d t i (by simpa using h)
      simp only [List.eraseIdx_cons_succ, List.getD_cons_succ, insertAt_succ_cons]
      rw [show insertAt i (t.getD i d) (t.eraseIdx i) = t from ih]

/-- The freshly inserted element sits at the insertion index. -/
theorem getD_insertAt_self {α : Type u} (d x : α) :
    ∀ (l : List α) (n : Nat), n ≤ l.length → (insertAt n x l).getD n d = x
  | _, 0, _ => by simp [insertAt]
  | a :: t, n + 1, h => by
      rw [insertAt_succ_cons, List.getD_cons_succ]
      exact getD_insertAt_self d x t n (by simpa using h)
  | [], n + 1, h => by simp at h

/-- Erasing at the insertion index undoes the insertion. -/
theorem eraseIdx_insertAt_self {α : Type u} (x : α) :
    ∀ (l : List α) (n : Nat), n ≤ l.length → (insertAt n x l).eraseIdx n = l
  | l, 0, _ => by simp [insertAt]
  | a :: t, n + 1, h => by
      rw [insertAt_succ_cons, List.eraseIdx_cons_succ]
      rw [eraseIdx_insertAt_self x t n (by simpa using h)]
  | [], n + 1, h => by simp at h

/-- Erasing the last element and appending it back restores the list. -/
theorem eraseIdx_last_append {α : Type u} (d : α) :
    ∀ (l : List α), l ≠ [] →
      l.eraseIdx (l.length - 1) ++ [l.getD (l.length - 1) d] = l
  | [], h => absurd rfl h
  | [a], _ => by simp
  | a :: b :: t, _ => by
      have ih := eraseIdx_last_append d (b :: t) (by simp)
      have hl : (a :: b :: t).length - 1 = (b :: t).length - 1 + 1 := by
        simp [Nat.succ_sub_one]
      rw [hl, List.eraseIdx_cons_succ, List.getD_cons_succ, List.cons_append, ih]

theorem length_insertAt {α : Type u} (n : Nat) (x : α) (l : List α) :
    (insertAt n x l).length = l.length + 1 := by
  simp [insertAt]
  omega

/-! ### moveEditor (label splice)

Source, `moveEditor` (lines 247-261):
```
const editorLabel = this.tabLabels[fromIndex];
this.tabLabels.splice(fromIndex, 1);
this.tabLabels.splice(targetIndex, 0, editorLabel);
```
-/

/-- The in-place label move of `moveEditor`: remove the label at
`fromIndex` and re-insert it at `targetIndex` (JS splice semantics). -/
def moveEditor {α : Type u} [Inhabited α] (labels : List α) (fromIndex targetIndex : Nat) :
    List α :=
  insertAt targetIndex (labels.getD fromIndex default) (labels.eraseIdx fromIndex)

theorem length_eraseIdx_lt {α : Type u} :
    ∀ (l : List α) (i : Nat), i < l.length → (l.eraseIdx i).length = l.length - 1
  | [], i, h => by simp at h
  | a :: t, 0, _ => by simp
  | a :: t, i + 1, h => by
      have hlt : i < t.length := by simpa using h
      have ih := length_eraseIdx_lt t i hlt
      simp only [List.eraseIdx_cons_succ, List.length_cons, ih]
      omega

/-- Moving a label from `i` to `j` and back restores the original list. -/
theorem moveEditor_moveEditor {α : Type u} [Inhabited α] (labels : List α) (i j : Nat)
    (hi : i < labels.length) (hj : j < labels.length) :
    moveEditor (moveEditor labels i j) j i = labels := by
  have hrem : (labels.eraseIdx i).length = labels.length - 1 := length_eraseIdx_lt labels i hi
  have hj1 : j ≤ (labels.eraseIdx i).length := by omega
  unfold moveEditor
  rw [getD_insertAt_self default _ (labels.eraseIdx i) j hj1,
    eraseIdx_insertAt_self _ (labels.eraseIdx i) j hj1]
  exact insertAt_eraseIdx_self default labels i hi

/-- `insertAt` at or beyond the length appends (JS splice). -/
theorem insertAt_of_length_le {α : Type u} (x : α) :
    ∀ (l : List α) (n : Nat), l.length ≤ n → insertAt n x l = l ++ [x]
  | [], n, _ => by simp [insertAt]
  | a :: t, n + 1, h => by
      rw [insertAt_succ_cons, insertAt_of_length_le x t n (by simpa using h)]
      rfl
  | a :: t, 0, h => by simp at h

/-! ### ScrollReveal: the deferred layout computation `doLayout`

Source (lines 818-865).  The state holds the scroll offset, the scroll
dimensions last pushed to the scroll bar, and the suppress-reveal-once
flag (`blockRevealActiveTab`).  The active tab is given by its measured
content-relative offset and width (`offsetLeft`, `offsetWidth`), the
container by its viewport width (`offsetWidth`) and total content width
(`scrollWidth`).
-/

structure ScrollState where
  scrollLeft : Nat
  width : Nat
  scrollWidth : Nat
  blockRevealActiveTab : Bool
deriving Repr, DecidableEq

/-- The deferred layout computation.  `activeTab` is `none` when the
group has no active editor (the computation aborts), otherwise it
carries the active tab's `(offsetLeft, offsetWidth)`.
`visibleContainerWidth` and `totalContainerWidth` are the container
measurements. -/
def doLayout (activeTab : Option (Nat × Nat))
    (visibleContainerWidth totalContainerWidth : Nat) (st : ScrollState) : ScrollState :=
  match activeTab with
  | none => st
  | some (activeTabPosX, activeTabWidth) =>
    let st1 := { st with width := visibleContainerWidth, scrollWidth := totalContainerWidth }
    if st.blockRevealActiveTab then
      { st1 with blockRevealActiveTab := false }
    else
      let containerScrollPosX := st.scrollLeft
      let activeTabFits := activeTabWidth ≤ visibleContainerWidth
      if activeTabFits ∧ containerScrollPosX + visibleContainerWidth < activeTabPosX + activeTabWidth then
        { st1 with scrollLeft :=
            containerScrollPosX + ((activeTabPosX + activeTabWidth) - (containerScrollPosX + visibleContainerWidth)) }
      else if containerScrollPosX > activeTabPosX ∨ ¬activeTabFits then
        { st1 with scrollLeft := activeTabPosX }
      else
        st1

/-! ### The path-shortening routine `shorten`

`shortenTabLabels` calls `shorten` from `vs/base/common/labels`, which is
not part of this repository snapshot; it is modelled from the spec below.
-/

/-- Splits a character sequence at every `'/'` separator.  Always
returns at least one (possibly empty) segment. -/
def splitOnSlash : List Char → List (List Char)
  | [] => [[]]
  | c :: cs =>
    match splitOnSlash cs with
    | [] => [[]]
    | g :: gs => if c = '/' then [] :: g :: gs else (c :: g) :: gs

/-- Joins segments back with `'/'` separators. -/
def joinSlash : List (List Char) → List Char
  | [] => []
  | [g] => g
  | g :: gs => g ++ '/' :: joinSlash gs

/-- The path segments of a description string. -/
def segsOf (s : String) : List (List Char) :=
  splitOnSlash s.data

/-- The trailing `k` segments (all of them when `k` exceeds the count). -/
def lastSegs (gs : List (List Char)) (k : Nat) : List (List Char) :=
  gs.drop (gs.length - k)

/-- `true` when the trailing `k` segments of the `i`-th input differ from
the trailing `k` segments of every other input. -/
def distinguishesAt (ds : List String) (i k : Nat) : Bool :=
  (List.range ds.length).all fun j =>
    j == i || decide (lastSegs (segsOf (ds.getD j "")) k ≠ lastSegs (segsOf (ds.getD i "")) k)

/-- First `k` in `[start, start + len)` satisfying `p`. -/
def firstDepth (p : Nat → Bool) : Nat → Nat → Option Nat
  | _, 0 => none
  | start, len + 1 => if p start then some start else firstDepth p (start + 1) len

/-- Modelled from the spec: the path-shortening routine of
`vs/base/common/labels` (`shorten`), which is not under `src/`.  Per
§4.2 step 5 it returns, for each input string, "the minimal suffix
(with ellipsis marker) needed to make every output unique": the shortest
trailing run of path segments distinguishing the string from every
other input, marked with a leading `…/` when it is a proper suffix; the
string itself is kept when no trailing run distinguishes it. -/
def shortenAt (ds : List String) (i : Nat) : String :=
  let s := ds.getD i ""
  let n := (segsOf s).length
  match firstDepth (distinguishesAt ds i) 1 n with
  | some k => if k = n then s else ⟨'…' :: '/' :: joinSlash (lastSegs (segsOf s) k)⟩
  | none => s

/-- Modelled from the spec: `shorten` applied to the whole batch of
distinct description values (see `shortenAt`). -/
def shorten (ds : List String) : List String :=
  (List.range ds.length).map (shortenAt ds)

/-! ### Lemmas about the shortening machinery -/

theorem splitOnSlash_ne_nil : ∀ cs : List Char, splitOnSlash cs ≠ []
  | [] => by simp [splitOnSlash]
  | c :: cs => by
      have h := splitOnSlash_ne_nil cs
      obtain ⟨g, gs, hs⟩ := List.exists_cons_of_ne_nil h
      rw [splitOnSlash, hs]
      dsimp only
      split <;> simp

theorem splitOnSlash_cons_slash (cs : List Char) :
    splitOnSlash ('/' :: cs) = [] :: splitOnSlash cs := by
  obtain ⟨g, gs, hs⟩ := List.exists_cons_of_ne_nil (splitOnSlash_ne_nil cs)
  rw [splitOnSlash, hs]
  simp

theorem splitOnSlash_cons_ne {c : Char} (cs : List Char) (hc : c ≠ '/') :
    ∃ g gs, splitOnSlash cs = g :: gs ∧ splitOnSlash (c :: cs) = (c :: g) :: gs := by
  obtain ⟨g, gs, hs⟩ := List.exists_cons_of_ne_nil (splitOnSlash_ne_nil cs)
  refine ⟨g, gs, hs, ?_⟩
  rw [splitOnSlash, hs]
  simp [hc]

theorem noslash_splitOnSlash : ∀ (cs : List Char) (g : List Char),
    g ∈ splitOnSlash cs → '/' ∉ g
  | [], g, hg => by
      simp [splitOnSlash] at hg
      simp [hg]
  | c :: cs, g, hg => by
      by_cases hc : c = '/'
      · subst hc
        rw [splitOnSlash_cons_slash] at hg
        rcases List.mem_cons.mp hg with hg | hg
        · simp [hg]
        · exact noslash_splitOnSlash cs g hg
      · obtain ⟨g0, gs, hs, he⟩ := splitOnSlash_cons_ne cs hc
        rw [he] at hg
        rcases List.mem_cons.mp hg with hg | hg
        · subst hg
          intro hmem
          rcases List.mem_cons.mp hmem with hmem | hmem
          · exact hc hmem.symm
          · exact noslash_splitOnSlash cs g0 (hs ▸ List.mem_cons_self g0 gs) hmem
        · exact noslash_splitOnSlash cs g (hs ▸ List.mem_cons_of_mem g0 hg)

theorem splitOnSlash_of_noslash : ∀ g : List Char, '/' ∉ g → splitOnSlash g = [g]
  | [], _ => rfl
  | c :: g, h => by
      have hc : c ≠ '/' := fun hc => h (hc ▸ List.mem_cons_self c g)
      have ih := splitOnSlash_of_noslash g (fun hm => h (List.mem_cons_of_mem c hm))
      obtain ⟨g0, gs, hs, he⟩ := splitOnSlash_cons_ne g hc
      rw [ih] at hs
      cases hs
      exact he

theorem splitOnSlash_append : ∀ (g rest : List Char), '/' ∉ g →
    splitOnSlash (g ++ '/' :: rest) = g :: splitOnSlash rest
  | [], rest, _ => by
      show splitOnSlash ('/' :: rest) = [] :: splitOnSlash rest
      exact splitOnSlash_cons_slash rest
  | c :: g, rest, h => by
      have hc : c ≠ '/' := fun hcc => h (hcc ▸ List.mem_cons_self c g)
      have ih := splitOnSlash_append g rest (fun hm => h (List.mem_cons_of_mem c hm))
      obtain ⟨g0, gs, hs, he⟩ := splitOnSlash_cons_ne (g ++ '/' :: rest) hc
      rw [ih] at hs
      cases hs
      exact he

theorem splitOnSlash_joinSlash : ∀ gs : List (List Char), gs ≠ [] →
    (∀ g ∈ gs, '/' ∉ g) → splitOnSlash (joinSlash gs) = gs
  | [], h, _ => absurd rfl h
  | [g], _, hno => by
      show splitOnSlash g = [g]
      exact splitOnSlash_of_noslash g (hno g (List.mem_singleton.mpr rfl))
  | g :: g2 :: gs, _, hno => by
      show splitOnSlash (g ++ '/' :: joinSlash (g2 :: gs)) = g :: g2 :: gs
      rw [splitOnSlash_append g _ (hno g (List.mem_cons_self _ _))]
      rw [splitOnSlash_joinSlash (g2 :: gs) (by simp)
        (fun x hx => hno x (List.mem_cons_of_mem g hx))]

theorem length_lastSegs (gs : List (List Char)) (k : Nat) :
    (lastSegs gs k).length = min k gs.length := by
  simp [lastSegs]
  omega

theorem lastSegs_lastSegs (gs : List (List Char)) {k kk : Nat} (h : k ≤ kk) :
    lastSegs (lastSegs gs kk) k = lastSegs gs k := by
  unfold lastSegs
  rw [List.drop_drop, List.length_drop]
  congr 1
  omega

theorem lastSegs_cons_of_le (a : List Char) (gs : List (List Char)) {k : Nat}
    (h : k ≤ gs.length) : lastSegs (a :: gs) k = lastSegs gs k := by
  unfold lastSegs
  have : (a :: gs).length - k = (gs.length - k) + 1 := by simp; omega
  rw [this, List.drop_succ_cons]

theorem lastSegs_of_ge (gs : List (List Char)) {k : Nat} (h : gs.length ≤ k) :
    lastSegs gs k = gs := by
  unfold lastSegs
  rw [Nat.sub_eq_zero_of_le h, List.drop_zero]

theorem mem_of_mem_lastSegs {gs : List (List Char)} {k : Nat} {g : List Char}
    (h : g ∈ lastSegs gs k) : g ∈ gs :=
  List.mem_of_mem_drop h

theorem firstDepth_some {p : Nat → Bool} :
    ∀ {start len k : Nat}, firstDepth p start len = some k →
      p k = true ∧ start ≤ k ∧ k < start + len ∧ ∀ m, start ≤ m → m < k → p m = false := by
  intro start len
  induction len generalizing start with
  | zero => intro k h; simp [firstDepth] at h
  | succ n ih =>
    intro k h
    unfold firstDepth at h
    by_cases hp : p start
    · rw [if_pos hp] at h
      cases h
      exact ⟨hp, Nat.le_refl _, by omega, fun m h1 h2 => by omega⟩
    · rw [if_neg hp] at h
      obtain ⟨h1, h2, h3, h4⟩ := ih h
      refine ⟨h1, by omega, by omega, fun m hm1 hm2 => ?_⟩
      rcases Nat.eq_or_lt_of_le hm1 with he | hl
      · subst he; exact Bool.eq_false_iff.mpr hp
      · exact h4 m hl hm2

theorem firstDepth_none {p : Nat → Bool} :
    ∀ {start len : Nat}, firstDepth p start len = none →
      ∀ m, start ≤ m → m < start + len → p m = false := by
  intro start len
  induction len generalizing start with
  | zero => intro _ m h1 h2; omega
  | succ n ih =>
    intro h m h1 h2
    unfold firstDepth at h
    by_cases hp : p start
    · rw [if_pos hp] at h; cases h
    · rw [if_neg hp] at h
      rcases Nat.eq_or_lt_of_le h1 with he | hl
      · subst he; exact Bool.eq_false_iff.mpr hp
      · exact ih h m hl (by omega)

theorem firstDepth_eq_some_of {p : Nat → Bool} :
    ∀ {start len k : Nat}, start ≤ k → k < start + len → p k = true →
      (∀ m, start ≤ m → m < k → p m = false) → firstDepth p start len = some k := by
  intro start len
  induction len generalizing start with
  | zero => intro k h1 h2; omega
  | succ n ih =>
    intro k h1 h2 h3 h4
    unfold firstDepth
    rcases Nat.eq_or_lt_of_le h1 with he | hl
    · subst he; rw [if_pos h3]
    · rw [if_neg (by simp [h4 start (Nat.le_refl _) hl])]
      exact ih (by omega) (by omega) h3 (fun m hm1 hm2 => h4 m (by omega) hm2)

theorem firstDepth_eq_none_of {p : Nat → Bool} :
    ∀ {start len : Nat}, (∀ m, start ≤ m → m < start + len → p m = false) →
      firstDepth p start len = none := by
  intro start len
  induction len generalizing start with
  | zero => intro _; rfl
  | succ n ih =>
    intro h
    unfold firstDepth
    rw [if_neg (by simp [h start (Nat.le_refl _) (by omega)])]
    exact ih (fun m hm1 hm2 => h m (by omega) (by omega))

theorem distinguishesAt_iff {ds : List String} {i k : Nat} :
    distinguishesAt ds i k = true ↔
      ∀ j, j < ds.length → j ≠ i →
        lastSegs (segsOf (ds.getD j "")) k ≠ lastSegs (segsOf (ds.getD i "")) k := by
  unfold distinguishesAt
  rw [List.all_eq_true]
  constructor
  · intro h j hj hne
    have := h j (List.mem_range.mpr hj)
    simp only [Bool.or_eq_true, beq_iff_eq, decide_eq_true_eq] at this
    rcases this with he | hne2
    · exact absurd he hne
    · exact hne2
  · intro h j hj
    simp only [Bool.or_eq_true, beq_iff_eq, decide_eq_true_eq]
    by_cases he : j = i
    · exact Or.inl he
    · exact Or.inr (h j (List.mem_range.mp hj) he)

theorem distinguishesAt_eq_false_iff {ds : List String} {i k : Nat} :
    distinguishesAt ds i k = false ↔
      ∃ j, j < ds.length ∧ j ≠ i ∧
        lastSegs (segsOf (ds.getD j "")) k = lastSegs (segsOf (ds.getD i "")) k := by
  rw [← Bool.not_eq_true, distinguishesAt_iff]
  push_neg
  constructor
  · rintro ⟨j, hj, hne, he⟩; exact ⟨j, hj, hne, he⟩
  · rintro ⟨j, hj, hne, he⟩; exact ⟨j, hj, hne, he⟩

theorem length_shorten (ds : List String) : (shorten ds).length = ds.length := by
  simp [shorten]

theorem shorten_getD {ds : List String} {j : Nat} (h : j < ds.length) :
    (shorten ds).getD j "" = shortenAt ds j := by
  unfold shorten
  rw [List.getD_eq_getElem?_getD, List.getElem?_map]
  rw [List.getElem?_range h]
  rfl

/-! ### Structure of `shorten` outputs -/

/-- Segments of the `i`-th input of a batch. -/
def segsAt (ds : List String) (i : Nat) : List (List Char) :=
  segsOf (ds.getD i "")

/-- Number of segments of the `i`-th input. -/
def segCount (ds : List String) (i : Nat) : Nat :=
  (segsAt ds i).length

/-- The minimal distinguishing depth chosen for the `i`-th input. -/
def depth (ds : List String) (i : Nat) : Option Nat :=
  firstDepth (distinguishesAt ds i) 1 (segCount ds i)

/-- Depth below which the output of `shortenAt` keeps the input's
trailing segments. -/
def kbound (ds : List String) (i : Nat) : Nat :=
  match depth ds i with
  | some k => k
  | none => segCount ds i

theorem shortenAt_eq (ds : List String) (i : Nat) :
    shortenAt ds i =
      match depth ds i with
      | some k =>
          if k = segCount ds i then ds.getD i ""
          else ⟨'…' :: '/' :: joinSlash (lastSegs (segsAt ds i) k)⟩
      | none => ds.getD i "" := rfl

theorem segCount_pos (ds : List String) (i : Nat) : 1 ≤ segCount ds i := by
  have h := splitOnSlash_ne_nil (ds.getD i "").data
  unfold segCount segsAt segsOf
  exact List.length_pos.mpr h

theorem depth_some_bounds {ds : List String} {i k : Nat} (h : depth ds i = some k) :
    1 ≤ k ∧ k ≤ segCount ds i ∧ distinguishesAt ds i k = true ∧
      ∀ m, 1 ≤ m → m < k → distinguishesAt ds i m = false := by
  obtain ⟨h1, h2, h3, h4⟩ := firstDepth_some h
  exact ⟨h2, by omega, h1, h4⟩

theorem kbound_le (ds : List String) (i : Nat) : kbound ds i ≤ segCount ds i := by
  unfold kbound
  cases hd : depth ds i with
  | none => exact Nat.le_refl _
  | some k => exact (depth_some_bounds hd).2.1

theorem segsOf_mk_ellipsis {S : List (List Char)} (hne : S ≠ [])
    (hno : ∀ g ∈ S, '/' ∉ g) :
    segsOf ⟨'…' :: '/' :: joinSlash S⟩ = ['…'] :: S := by
  show splitOnSlash ('…' :: '/' :: joinSlash S) = ['…'] :: S
  have hc : '…' ≠ '/' := by decide
  obtain ⟨g, gs, hs, he⟩ := splitOnSlash_cons_ne ('/' :: joinSlash S) hc
  rw [splitOnSlash_cons_slash, splitOnSlash_joinSlash S hne hno] at hs
  cases hs
  exact he

theorem noslash_segsAt (ds : List String) (i : Nat) :
    ∀ g ∈ segsAt ds i, '/' ∉ g :=
  fun g hg => noslash_splitOnSlash _ g hg

theorem length_lastSegs_of_le {ds : List String} {i k : Nat}
    (h : k ≤ segCount ds i) : (lastSegs (segsAt ds i) k).length = k := by
  rw [length_lastSegs]
  unfold segCount at h
  omega

theorem segs_shortenAt_short {ds : List String} {i k : Nat}
    (hd : depth ds i = some k) (hk : k ≠ segCount ds i) :
    segsOf (shortenAt ds i) = ['…'] :: lastSegs (segsAt ds i) k := by
  obtain ⟨hk1, hk2, _, _⟩ := depth_some_bounds hd
  rw [shortenAt_eq, hd]
  dsimp only
  rw [if_neg hk]
  apply segsOf_mk_ellipsis
  · intro hnil
    have := @length_lastSegs_of_le ds i k hk2
    rw [hnil] at this
    simp at this
    omega
  · exact fun g hg => noslash_segsAt ds i g (mem_of_mem_lastSegs hg)

theorem shortenAt_full {ds : List String} {i : Nat}
    (h : depth ds i = none ∨ depth ds i = some (segCount ds i)) :
    shortenAt ds i = ds.getD i "" := by
  rw [shortenAt_eq]
  rcases h with h | h <;> rw [h]
  simp

/-- Below `kbound`, the output of `shortenAt` has the same trailing
segments as the input. -/
theorem lastSegs_segs_shortenAt {ds : List String} {i k : Nat}
    (hk : k ≤ kbound ds i) :
    lastSegs (segsOf (shortenAt ds i)) k = lastSegs (segsAt ds i) k := by
  cases hd : depth ds i with
  | none =>
      rw [shortenAt_full (Or.inl hd)]
      rfl
  | some k0 =>
      by_cases hfull : k0 = segCount ds i
      · rw [shortenAt_full (Or.inr (hfull ▸ hd))]
        rfl
      · have hkb : kbound ds i = k0 := by unfold kbound; rw [hd]
        rw [hkb] at hk
        obtain ⟨hk1, hk2, _, _⟩ := depth_some_bounds hd
        rw [segs_shortenAt_short hd hfull]
        have hlen : (lastSegs (segsAt ds i) k0).length = k0 := length_lastSegs_of_le hk2
        rw [lastSegs_cons_of_le _ _ (by rw [hlen]; exact hk)]
        exact lastSegs_lastSegs _ hk

theorem distinguishesAt_shorten_iff {ds : List String} {i k : Nat}
    (hi : i < ds.length) :
    distinguishesAt (shorten ds) i k = true ↔
      ∀ j, j < ds.length → j ≠ i →
        lastSegs (segsOf (shortenAt ds j)) k ≠ lastSegs (segsOf (shortenAt ds i)) k := by
  rw [distinguishesAt_iff]
  rw [length_shorten]
  constructor
  · intro h j hj hne
    have := h j hj hne
    rwa [shorten_getD hj, shorten_getD hi] at this
  · intro h j hj hne
    rw [shorten_getD hj, shorten_getD hi]
    exact h j hj hne

/-- A depth failing to distinguish input `i` still fails to distinguish
output `i` (at depths protected by `kbound`). -/
theorem nondistinguishing_preserved {ds : List String} {i k : Nat}
    (hi : i < ds.length) (hk1 : 1 ≤ k) (hkb : k ≤ kbound ds i)
    (hfalse : distinguishesAt ds i k = false) :
    distinguishesAt (shorten ds) i k = false := by
  obtain ⟨j, hj, hne, he⟩ := distinguishesAt_eq_false_iff.mp hfalse
  have he2 : lastSegs (segsAt ds j) k = lastSegs (segsAt ds i) k := he
  have hki : k ≤ segCount ds i := Nat.le_trans hkb (kbound_le ds i)
  have hkbj : k ≤ kbound ds j := by
    cases hdj : depth ds j with
    | none =>
        have hkbj2 : kbound ds j = segCount ds j := by unfold kbound; rw [hdj]
        rw [hkbj2]
        have hlen := congrArg List.length he2
        rw [length_lastSegs, length_lastSegs] at hlen
        unfold segCount segsAt at hki ⊢
        unfold segsAt at hlen
        omega
    | some kj =>
        by_contra hcon
        have hkj : kj < k := by
          have hkbj3 : kbound ds j = kj := by unfold kbound; rw [hdj]
          omega
        obtain ⟨_, _, hdist, _⟩ := depth_some_bounds hdj
        have hij := (distinguishesAt_iff.mp hdist) i hi (Ne.symm hne)
        apply hij
        show lastSegs (segsAt ds i) kj = lastSegs (segsAt ds j) kj
        calc lastSegs (segsAt ds i) kj
            = lastSegs (lastSegs (segsAt ds i) k) kj := (lastSegs_lastSegs _ (Nat.le_of_lt hkj)).symm
          _ = lastSegs (lastSegs (segsAt ds j) k) kj := by rw [he2]
          _ = lastSegs (segsAt ds j) kj := lastSegs_lastSegs _ (Nat.le_of_lt hkj)
  rw [← Bool.not_eq_true, distinguishesAt_shorten_iff hi]
  push_neg
  refine ⟨j, hj, hne, ?_⟩
  rw [lastSegs_segs_shortenAt hkbj, lastSegs_segs_shortenAt hkb]
  exact he2

/-- The depth chosen for input `i` still distinguishes output `i` among
the outputs. -/
theorem distinguishing_preserved {ds : List String} {i k : Nat}
    (hi : i < ds.length) (hd : depth ds i = some k) :
    distinguishesAt (shorten ds) i k = true := by
  obtain ⟨_, hki, hdist, _⟩ := depth_some_bounds hd
  have hkbi : kbound ds i = k := by unfold kbound; rw [hd]
  rw [distinguishesAt_shorten_iff hi]
  intro j hj hne
  rw [lastSegs_segs_shortenAt (show k ≤ kbound ds i by omega)]
  have hSi : (lastSegs (segsAt ds i) k).length = k := length_lastSegs_of_le hki
  have hne2 : lastSegs (segsAt ds j) k ≠ lastSegs (segsAt ds i) k :=
    (distinguishesAt_iff.mp hdist) j hj hne
  cases hdj : depth ds j with
  | none =>
      rw [shortenAt_full (Or.inl hdj)]
      exact hne2
  | some kj =>
      by_cases hfull : kj = segCount ds j
      · rw [shortenAt_full (Or.inr (hfull ▸ hdj))]
        exact hne2
      · obtain ⟨hkj1, hkj2, hdistj, _⟩ := depth_some_bounds hdj
        by_cases hkkj : k ≤ kj
        · have hkbj : kbound ds j = kj := by unfold kbound; rw [hdj]
          rw [lastSegs_segs_shortenAt (hkbj ▸ hkkj)]
          exact hne2
        · have hkj : kj < k := Nat.lt_of_not_le hkkj
          rw [segs_shortenAt_short hdj hfull]
          have hSj : (lastSegs (segsAt ds j) kj).length = kj := length_lastSegs_of_le hkj2
          have hwhole : lastSegs (['…'] :: lastSegs (segsAt ds j) kj) k
              = ['…'] :: lastSegs (segsAt ds j) kj := by
            apply lastSegs_of_ge
            simp [hSj]
            omega
          rw [hwhole]
          intro heq
          have hij := (distinguishesAt_iff.mp hdistj) i hi (Ne.symm hne)
          apply hij
          show lastSegs (segsAt ds i) kj = lastSegs (segsAt ds j) kj
          have h1 : lastSegs (lastSegs (segsAt ds i) k) kj
              = lastSegs (['…'] :: lastSegs (segsAt ds j) kj) kj := by rw [← heq]
          rw [lastSegs_lastSegs _ (Nat.le_of_lt hkj)] at h1
          rw [lastSegs_cons_of_le _ _ (by omega)] at h1
          rw [lastSegs_lastSegs _ (Nat.le_refl kj)] at h1
          exact h1

theorem segsAt_shorten {ds : List String} {i : Nat} (hi : i < ds.length) :
    segsAt (shorten ds) i = segsOf (shortenAt ds i) := by
  unfold segsAt
  rw [shorten_getD hi]

/-- Re-shortening an already shortened batch keeps every entry. -/
theorem shortenAt_shorten {ds : List String} {i : Nat} (hi : i < ds.length) :
    shortenAt (shorten ds) i = shortenAt ds i := by
  cases hd : depth ds i with
  | none =>
      have hmin := firstDepth_none hd
      have hnone : depth (shorten ds) i = none := by
        apply firstDepth_eq_none_of
        intro m hm1 hm2
        have hsc : segCount (shorten ds) i = segCount ds i := by
          unfold segCount
          rw [segsAt_shorten hi, shortenAt_full (Or.inl hd)]
          rfl
        rw [hsc] at hm2
        have hkbi : kbound ds i = segCount ds i := by unfold kbound; rw [hd]
        exact nondistinguishing_preserved hi hm1 (by omega) (hmin m hm1 (by omega))
      rw [shortenAt_eq, hnone, shorten_getD hi]
  | some k =>
      obtain ⟨hk1, hki, _, hminim⟩ := depth_some_bounds hd
      have hkbi : kbound ds i = k := by unfold kbound; rw [hd]
      by_cases hfull : k = segCount ds i
      · have hsc : segCount (shorten ds) i = segCount ds i := by
          unfold segCount
          rw [segsAt_shorten hi, shortenAt_full (Or.inr (hfull ▸ hd))]
          rfl
        have hsome : depth (shorten ds) i = some k := by
          apply firstDepth_eq_some_of hk1 (by rw [hsc]; omega)
            (distinguishing_preserved hi hd)
          intro m hm1 hm2
          exact nondistinguishing_preserved hi hm1 (by omega) (hminim m hm1 hm2)
        rw [shortenAt_eq, hsome]
        dsimp only
        rw [if_pos (hsc ▸ hfull), shorten_getD hi, shortenAt_full (Or.inr (hfull ▸ hd))]
      · have hsegs := segs_shortenAt_short hd hfull
        have hslen : (lastSegs (segsAt ds i) k).length = k := length_lastSegs_of_le hki
        have hsc : segCount (shorten ds) i = k + 1 := by
          unfold segCount
          rw [segsAt_shorten hi, hsegs]
          simp [hslen]
        have hsome : depth (shorten ds) i = some k := by
          apply firstDepth_eq_some_of hk1 (by rw [hsc]; omega)
            (distinguishing_preserved hi hd)
          intro m hm1 hm2
          exact nondistinguishing_preserved hi hm1 (by omega) (hminim m hm1 hm2)
        rw [shortenAt_eq, hsome]
        dsimp only
        rw [if_neg (by omega)]
        have htrail : lastSegs (segsAt (shorten ds) i) k = lastSegs (segsAt ds i) k := by
          rw [segsAt_shorten hi]
          exact lastSegs_segs_shortenAt (by omega)
        rw [htrail, shortenAt_eq, hd]
        dsimp only
        rw [if_neg hfull]

/-- Modelled `shorten` is idempotent. -/
theorem shorten_idem (ds : List String) : shorten (shorten ds) = shorten ds := by
  show (List.range (shorten ds).length).map (shortenAt (shorten ds))
      = (List.range ds.length).map (shortenAt ds)
  rw [length_shorten]
  apply List.map_congr_left
  intro i hi
  exact shortenAt_shorten (List.mem_range.mp hi)

theorem lastSegs_cons_self (a : List Char) (S : List (List Char)) :
    lastSegs (a :: S) S.length = S := by
  rw [lastSegs_cons_of_le a S (Nat.le_refl _), lastSegs_of_ge S (Nat.le_refl _)]

/-- Auxiliary asymmetric case: a properly shortened output never equals
a kept-whole output. -/
theorem shortenAt_ne_aux {ds : List String} {i j k : Nat}
    (hi : i < ds.length) (hj : j < ds.length) (hne : j ≠ i)
    (hd : depth ds i = some k) (hfull : k ≠ segCount ds i)
    (hjfull : shortenAt ds j = ds.getD j "") :
    shortenAt ds i ≠ shortenAt ds j := by
  intro heq
  obtain ⟨hk1, hki, hdist, _⟩ := depth_some_bounds hd
  have hslen : (lastSegs (segsAt ds i) k).length = k := length_lastSegs_of_le hki
  have hsegs := congrArg segsOf heq
  rw [segs_shortenAt_short hd hfull, hjfull] at hsegs
  have hsegs2 : segsAt ds j = ['…'] :: lastSegs (segsAt ds i) k := hsegs.symm
  have hlast : lastSegs (segsAt ds j) k = lastSegs (segsAt ds i) k := by
    rw [hsegs2]
    calc lastSegs (['…'] :: lastSegs (segsAt ds i) k) k
        = lastSegs (['…'] :: lastSegs (segsAt ds i) k) (lastSegs (segsAt ds i) k).length := by
          rw [hslen]
      _ = lastSegs (segsAt ds i) k := lastSegs_cons_self _ _
  exact (distinguishesAt_iff.mp hdist) j hj hne hlast

/-- Distinct inputs yield distinct outputs. -/
theorem shortenAt_inj {ds : List String} {i j : Nat}
    (hi : i < ds.length) (hj : j < ds.length) (hne : i ≠ j)
    (hd : ds.getD i "" ≠ ds.getD j "") :
    shortenAt ds i ≠ shortenAt ds j := by
  have hfulli : depth ds i = none ∨ depth ds i = some (segCount ds i) →
      shortenAt ds i = ds.getD i "" := shortenAt_full
  cases hdi : depth ds i with
  | none =>
      cases hdj : depth ds j with
      | none =>
          rw [shortenAt_full (Or.inl hdi), shortenAt_full (Or.inl hdj)]
          exact hd
      | some kj =>
          by_cases hfullj : kj = segCount ds j
          · rw [shortenAt_full (Or.inl hdi), shortenAt_full (Or.inr (hfullj ▸ hdj))]
            exact hd
          · exact (shortenAt_ne_aux hj hi (Ne.symm hne).symm hdj hfullj
              (shortenAt_full (Or.inl hdi))).symm
  | some ki =>
      by_cases hfulli2 : ki = segCount ds i
      · cases hdj : depth ds j with
        | none =>
            rw [shortenAt_full (Or.inr (hfulli2 ▸ hdi)), shortenAt_full (Or.inl hdj)]
            exact hd
        | some kj =>
            by_cases hfullj : kj = segCount ds j
            · rw [shortenAt_full (Or.inr (hfulli2 ▸ hdi)),
                shortenAt_full (Or.inr (hfullj ▸ hdj))]
              exact hd
            · exact (shortenAt_ne_aux hj hi hne hdj hfullj
                (shortenAt_full (Or.inr (hfulli2 ▸ hdi)))).symm
      · cases hdj : depth ds j with
        | none =>
            exact shortenAt_ne_aux hi hj (Ne.symm hne) hdi hfulli2
              (shortenAt_full (Or.inl hdj))
        | some kj =>
            by_cases hfullj : kj = segCount ds j
            · exact shortenAt_ne_aux hi hj (Ne.symm hne) hdi hfulli2
                (shortenAt_full (Or.inr (hfullj ▸ hdj)))
            · intro heq
              obtain ⟨hk1, hki, hdist, _⟩ := depth_some_bounds hdi
              obtain ⟨hkj1, hkj2, hdistj, _⟩ := depth_some_bounds hdj
              have hsi : (lastSegs (segsAt ds i) ki).length = ki := length_lastSegs_of_le hki
              have hsj : (lastSegs (segsAt ds j) kj).length = kj := length_lastSegs_of_le hkj2
              have hsegs := congrArg segsOf heq
              rw [segs_shortenAt_short hdi hfulli2, segs_shortenAt_short hdj hfullj] at hsegs
              have hS : lastSegs (segsAt ds i) ki = lastSegs (segsAt ds j) kj :=
                (List.cons_injective hsegs :)
              have hkk : ki = kj := by rw [← hsi, ← hsj, hS]
              have hlast : lastSegs (segsAt ds j) ki = lastSegs (segsAt ds i) ki := by
                rw [hkk] at hS ⊢
                exact hS.symm
              exact (distinguishesAt_iff.mp hdist) j hj (Ne.symm hne) hlast

/-! ### Tab labels and the duplicate resolver `shortenTabLabels`

Source (lines 599-666).  A label carries `{editor, name, description,
title}`; `description` is the description computed at the configured
verbosity and may be missing (`typeof label.description === 'string'`
fails).  `descriptionLong` models `editor.getDescription(Verbosity.LONG)`
of the label's back-referenced editor, queried by the resolver when
medium descriptions collide.
-/

structure ALabel where
  editor : Nat
  name : String
  description : Option String
  descriptionLong : String
  title : String
deriving Repr, DecidableEq, Inhabited

/-- First-occurrence key order of a JS `Map` built by `getOrSet`. -/
def uniqKeys {α : Type u} [DecidableEq α] : List α → List α
  | [] => []
  | k :: ks => k :: (uniqKeys ks).filter (fun x => decide (x ≠ k))

/-- Index of the first occurrence of a key (JS bookkeeping for
assigning `shortenedDescriptions[i]` back to the labels of key `i`). -/
def descIndexOf (a : String) : List String → Nat
  | [] => 0
  | b :: bs => if a = b then 0 else descIndexOf a bs + 1

/-- The name-group of `n`: the labels pushed into
`mapTitleToDuplicates.get(n)`, i.e. the labels with a string description
whose `name` equals `n`, in order. -/
def groupOf (labels : List ALabel) (n : String) : List ALabel :=
  labels.filter (fun l => l.description.isSome && l.name == n)

/-- The sub-partition of a name-group by current description
(`mapDescriptionToDuplicates.get(d)`). -/
def subOf (g : List ALabel) (d : Option String) : List ALabel :=
  g.filter (fun l => l.description == d)

/-- Whether any sub-partition with duplicate descriptions has two
differing long descriptions (`useLongDescriptions`). -/
def useLongDescriptions (g : List ALabel) : Bool :=
  (uniqKeys (g.map (fun l => l.description))).any (fun d =>
    decide (1 < (subOf g d).length) &&
      match (subOf g d).map (fun l => l.descriptionLong) with
      | [] => false
      | first :: rest => rest.any (fun x => x != first))

/-- The description a label contributes after the optional re-partition
by long description. -/
def workingDesc (ul : Bool) (l : ALabel) : String :=
  if ul then l.descriptionLong else l.description.getD ""

/-- The final description the resolver assigns to label `l` (whose
description is a string), given the full label batch. -/
def finalDesc (labels : List ALabel) (l : ALabel) : String :=
  let g := groupOf labels l.name
  if g.length = 1 then ""
  else
    let ul := useLongDescriptions g
    let ds := uniqKeys (g.map (workingDesc ul))
    if ds.length = 1 then ""
    else (shorten ds).getD (descIndexOf (workingDesc ul l) ds) ""

/-- Per-label effect of the resolver: a label with a non-string
description is forced to an empty description, any other label receives
the description computed for its name-group. -/
def resolveLabel (labels : List ALabel) (l : ALabel) : ALabel :=
  match l.description with
  | none => { l with description := some "" }
  | some _ => { l with description := some (finalDesc labels l) }

/-- The duplicate resolver (`shortenTabLabels`). -/
def shortenTabLabels (labels : List ALabel) : List ALabel :=
  labels.map (resolveLabel labels)

/-! ### Resolver lemmas -/

theorem mem_uniqKeys {α : Type u} [DecidableEq α] :
    ∀ (L : List α) (x : α), x ∈ uniqKeys L ↔ x ∈ L
  | [], x => by simp [uniqKeys]
  | k :: ks, x => by
      unfold uniqKeys
      simp only [List.mem_cons, List.mem_filter, decide_eq_true_eq]
      constructor
      · rintro (h | ⟨h, _⟩)
        · exact Or.inl h
        · exact Or.inr ((mem_uniqKeys ks x).mp h)
      · rintro (h | h)
        · exact Or.inl h
        · by_cases he : x = k
          · exact Or.inl he
          · exact Or.inr ⟨(mem_uniqKeys ks x).mpr h, he⟩

theorem uniqKeys_of_pairwise {α : Type u} [DecidableEq α] :
    ∀ L : List α, L.Pairwise (fun a b => a ≠ b) → uniqKeys L = L
  | [], _ => rfl
  | k :: ks, h => by
      rw [List.pairwise_cons] at h
      unfold uniqKeys
      rw [uniqKeys_of_pairwise ks h.2]
      rw [List.filter_eq_self.mpr]
      intro x hx
      simp only [decide_eq_true_eq]
      exact fun he => h.1 x hx he.symm

theorem uniqKeys_of_const {α : Type u} [DecidableEq α] (c : α) :
    ∀ L : List α, (∀ x ∈ L, x = c) → L ≠ [] → uniqKeys L = [c]
  | [], _, hne => absurd rfl hne
  | k :: ks, hc, _ => by
      have hk : k = c := hc k (List.mem_cons_self _ _)
      unfold uniqKeys
      rw [List.filter_eq_nil_iff.mpr, hk]
      intro x hx
      have hx2 : x = c := hc x (List.mem_cons_of_mem _ ((mem_uniqKeys ks x).mp hx))
      simp [hx2, hk]

theorem getD_eq_getElem_of_lt {α : Type u} (L : List α) (d : α) {i : Nat}
    (h : i < L.length) : L.getD i d = L.get ⟨i, h⟩ := by
  rw [List.getD_eq_getElem?_getD, List.getElem?_eq_getElem h]
  rfl

theorem getD_mem {α : Type u} (L : List α) (d : α) {i : Nat} (h : i < L.length) :
    L.getD i d ∈ L := by
  rw [getD_eq_getElem_of_lt L d h]
  exact L.get_mem i h

theorem getD_map {α β : Type u} (f : α → β) (L : List α) (d : α) {i : Nat}
    (h : i < L.length) : (L.map f).getD i (f d) = f (L.getD i d) := by
  rw [getD_eq_getElem_of_lt _ _ (by simpa using h), getD_eq_getElem_of_lt _ _ h]
  simp

theorem descIndexOf_getD :
    ∀ (L : List String) (p : Nat), L.Pairwise (fun a b => a ≠ b) → p < L.length →
      descIndexOf (L.getD p "") L = p
  | [], p, _, hp => by simp at hp
  | b :: bs, 0, _, _ => by simp [descIndexOf]
  | b :: bs, p + 1, hpair, hp => by
      rw [List.pairwise_cons] at hpair
      have hmem : bs.getD p "" ∈ bs := getD_mem bs "" (by simpa using hp)
      unfold descIndexOf
      rw [List.getD_cons_succ, if_neg (fun he => hpair.1 _ hmem he.symm)]
      rw [descIndexOf_getD bs p hpair.2 (by simpa using hp)]

theorem descIndexOf_lt_of_mem :
    ∀ (L : List String) (a : String), a ∈ L → descIndexOf a L < L.length
  | [], a, ha => by simp at ha
  | b :: bs, a, ha => by
      unfold descIndexOf
      by_cases he : a = b
      · rw [if_pos he]; simp
      · rw [if_neg he]
        have hmem : a ∈ bs := by
          rcases List.mem_cons.mp ha with h | h
          · exact absurd h he
          · exact h
        have := descIndexOf_lt_of_mem bs a hmem
        simp
        omega

theorem resolveLabel_editor (labels : List ALabel) (l : ALabel) :
    (resolveLabel labels l).editor = l.editor := by
  unfold resolveLabel
  cases l.description <;> rfl

theorem resolveLabel_name (labels : List ALabel) (l : ALabel) :
    (resolveLabel labels l).name = l.name := by
  unfold resolveLabel
  cases l.description <;> rfl

theorem resolveLabel_title (labels : List ALabel) (l : ALabel) :
    (resolveLabel labels l).title = l.title := by
  unfold resolveLabel
  cases l.description <;> rfl

theorem resolveLabel_descriptionLong (labels : List ALabel) (l : ALabel) :
    (resolveLabel labels l).descriptionLong = l.descriptionLong := by
  unfold resolveLabel
  cases l.description <;> rfl

theorem resolveLabel_isSome (labels : List ALabel) (l : ALabel) :
    (resolveLabel labels l).description.isSome = true := by
  unfold resolveLabel
  cases l.description <;> rfl

theorem resolveLabel_of_some {l : ALabel} (labels : List ALabel) {d : String}
    (h : l.description = some d) :
    resolveLabel labels l = { l with description := some (finalDesc labels l) } := by
  unfold resolveLabel
  rw [h]

theorem resolveLabel_of_none {l : ALabel} (labels : List ALabel)
    (h : l.description = none) :
    resolveLabel labels l = { l with description := some "" } := by
  unfold resolveLabel
  rw [h]

theorem mem_groupOf {labels : List ALabel} {nm : String} {m : ALabel} :
    m ∈ groupOf labels nm ↔ m ∈ labels ∧ m.description.isSome ∧ m.name = nm := by
  unfold groupOf
  rw [List.mem_filter]
  simp

theorem self_mem_groupOf {labels : List ALabel} {l : ALabel} (hl : l ∈ labels)
    (hs : l.description.isSome) : l ∈ groupOf labels l.name :=
  mem_groupOf.mpr ⟨hl, hs, rfl⟩

theorem filter_map_comm {α β : Type u} (f : α → β) (p : β → Bool) :
    ∀ l : List α, (l.map f).filter p = (l.filter (fun a => p (f a))).map f
  | [] => rfl
  | a :: t => by
      by_cases hp : p (f a)
      · simp only [List.map_cons, List.filter_cons, hp, if_pos, if_true]
        rw [filter_map_comm f p t]
      · simp only [List.map_cons, List.filter_cons, hp]
        rw [filter_map_comm f p t]
        simp

/-- After a resolver pass every description is a string, so the second
pass groups the images of exactly the first pass's group members. -/
theorem groupOf_shortenTabLabels (labels : List ALabel) (nm : String)
    (hall : ∀ l ∈ labels, l.description.isSome) :
    groupOf (shortenTabLabels labels) nm
      = (groupOf labels nm).map (resolveLabel labels) := by
  unfold shortenTabLabels groupOf
  rw [filter_map_comm]
  congr 1
  apply List.filter_congr
  intro x hx
  rw [resolveLabel_isSome, resolveLabel_name]
  rw [hall x hx]

/-- A list that is pairwise-distinct on a key but constant on that key
has at most one element. -/
theorem length_le_one_of_pairwise_const {α : Type u} {key : α → Option String}
    {d : Option String} :
    ∀ L : List α, L.Pairwise (fun a b => key a ≠ key b) →
      (∀ x ∈ L, key x = d) → L.length ≤ 1
  | [], _, _ => by simp
  | [x], _, _ => by simp
  | x :: y :: t, hpair, hconst => by
      rw [List.pairwise_cons] at hpair
      exact absurd (hconst x (List.mem_cons_self _ _) ▸
          hconst y (List.mem_cons_of_mem _ (List.mem_cons_self _ _)))
        (by
          have := hpair.1 y (List.mem_cons_self _ _)
          intro he
          exact this (by rw [hconst x (List.mem_cons_self _ _),
            hconst y (List.mem_cons_of_mem _ (List.mem_cons_self _ _))]))

theorem subOf_const {g : List ALabel} {d : Option String} :
    ∀ x ∈ subOf g d, x.description = d := by
  intro x hx
  unfold subOf at hx
  rw [List.mem_filter] at hx
  simpa using hx.2

theorem subOf_sublist (g : List ALabel) (d : Option String) :
    (subOf g d).Sublist g :=
  List.filter_sublist g

/-- With pairwise distinct descriptions every sub-partition is a
singleton, so the long-description probe never fires. -/
theorem useLong_eq_false_of_pairwise {g : List ALabel}
    (hpair : g.Pairwise (fun a b => a.description ≠ b.description)) :
    useLongDescriptions g = false := by
  unfold useLongDescriptions
  rw [← Bool.not_eq_true, List.any_eq_true]
  rintro ⟨d, _, hd⟩
  rw [Bool.and_eq_true] at hd
  have hle : (subOf g d).length ≤ 1 :=
    length_le_one_of_pairwise_const (subOf g d)
      (List.Pairwise.sublist (subOf_sublist g d) hpair) subOf_const
  have := hd.1
  simp only [decide_eq_true_eq] at this
  omega

theorem shortenTabLabels_getD {labels : List ALabel} {i : Nat}
    (hi : i < labels.length) :
    (shortenTabLabels labels).getD i default
      = resolveLabel labels (labels.getD i default) := by
  unfold shortenTabLabels
  rw [getD_eq_getElem_of_lt _ default (by simpa using hi),
    getD_eq_getElem_of_lt _ default hi]
  simp

theorem eq_of_uniqKeys_singleton {α : Type u} [DecidableEq α] {L : List α}
    (h : (uniqKeys L).length = 1) : ∀ x ∈ L, ∀ y ∈ L, x = y := by
  obtain ⟨c, hc⟩ := List.length_eq_one.mp h
  intro x hx y hy
  have hx2 : x ∈ [c] := hc ▸ (mem_uniqKeys L x).mpr hx
  have hy2 : y ∈ [c] := hc ▸ (mem_uniqKeys L y).mpr hy
  rw [List.mem_singleton.mp hx2, List.mem_singleton.mp hy2]

theorem finalDesc_of_singleton {labels : List ALabel} (l : ALabel)
    (h : (groupOf labels l.name).length = 1) : finalDesc labels l = "" := by
  unfold finalDesc
  simp only [h, if_pos]

/-- When both the medium and the long descriptions are constant across
the name-group, the resolver clears the group's descriptions. -/
theorem finalDesc_of_all_same {labels : List ALabel} (l : ALabel)
    (hne : groupOf labels l.name ≠ [])
    (hconstd : ∀ m ∈ groupOf labels l.name, ∀ m2 ∈ groupOf labels l.name,
      m.description = m2.description)
    (hconstl : ∀ m ∈ groupOf labels l.name, ∀ m2 ∈ groupOf labels l.name,
      m.descriptionLong = m2.descriptionLong) :
    finalDesc labels l = "" := by
  by_cases h1 : (groupOf labels l.name).length = 1
  · exact finalDesc_of_singleton l h1
  · have hlen : 0 < (groupOf labels l.name).length := List.length_pos.mpr hne
    have hhead : (groupOf labels l.name).getD 0 default ∈ groupOf labels l.name :=
      getD_mem _ default hlen
    have hconst : ∀ x ∈ (groupOf labels l.name).map
          (workingDesc (useLongDescriptions (groupOf labels l.name))),
        x = workingDesc (useLongDescriptions (groupOf labels l.name))
          ((groupOf labels l.name).getD 0 default) := by
      intro x hx
      obtain ⟨m, hm, hxm⟩ := List.mem_map.mp hx
      subst hxm
      unfold workingDesc
      cases h2 : useLongDescriptions (groupOf labels l.name)
      · simp only [Bool.false_eq_true, if_false]
        rw [hconstd m hm _ hhead]
      · simp only [if_true]
        exact hconstl m hm _ hhead
    have huk := uniqKeys_of_const _ _ hconst (by simpa using hne)
    unfold finalDesc
    dsimp only
    rw [if_neg h1, huk]
    rfl

/-! ### Idempotence of the resolver on distinct-description batches -/

theorem pairwise_getD {L : List String}
    (h : L.Pairwise (fun a b => a ≠ b)) {i j : Nat}
    (hi : i < L.length) (hj : j < L.length) (hne : i ≠ j) :
    L.getD i "" ≠ L.getD j "" := by
  rw [getD_eq_getElem_of_lt L "" hi, getD_eq_getElem_of_lt L "" hj]
  rcases Nat.lt_or_ge i j with hlt | hge
  · have := List.pairwise_iff_getElem.mp h i j hi hj hlt
    simpa using this
  · have hlt : j < i := by omega
    have := List.pairwise_iff_getElem.mp h j i hj hi hlt
    simp only [List.get_eq_getElem]
    exact fun he => this he.symm

/-- `shorten` preserves pairwise distinctness. -/
theorem shorten_pairwise {ds : List String}
    (h : ds.Pairwise (fun a b => a ≠ b)) :
    (shorten ds).Pairwise (fun a b => a ≠ b) := by
  unfold shorten
  rw [List.pairwise_map]
  have hr : (List.range ds.length).Pairwise (fun a b => a < b) :=
    List.pairwise_lt_range ds.length
  refine List.Pairwise.imp_of_mem ?_ hr
  intro i j hi hj hlt
  have hi2 : i < ds.length := List.mem_range.mp hi
  have hj2 : j < ds.length := List.mem_range.mp hj
  exact shortenAt_inj hi2 hj2 (Nat.ne_of_lt hlt) (pairwise_getD h hi2 hj2 (Nat.ne_of_lt hlt))

/-- Strip medium descriptions into working keys, preserving
distinctness. -/
theorem pairwise_workingDesc {g : List ALabel}
    (hsome : ∀ m ∈ g, m.description.isSome)
    (hpair : g.Pairwise (fun a b => a.description ≠ b.description)) :
    (g.map (workingDesc false)).Pairwise (fun a b => a ≠ b) := by
  rw [List.pairwise_map]
  refine List.Pairwise.imp_of_mem ?_ hpair
  intro a b ha hb hne
  obtain ⟨da, hda⟩ := Option.isSome_iff_exists.mp (hsome a ha)
  obtain ⟨db, hdb⟩ := Option.isSome_iff_exists.mp (hsome b hb)
  unfold workingDesc
  simp only [Bool.false_eq_true, if_false, hda, hdb, Option.getD_some]
  intro he
  exact hne (by rw [hda, hdb, he])

theorem groupOf_isSome {labels : List ALabel} {nm : String} :
    ∀ m ∈ groupOf labels nm, m.description.isSome :=
  fun m hm => (mem_groupOf.mp hm).2.1

theorem groupOf_name {labels : List ALabel} {nm : String} :
    ∀ m ∈ groupOf labels nm, m.name = nm :=
  fun m hm => (mem_groupOf.mp hm).2.2

/-- Core computation: in a group of size ≠ 1 with pairwise distinct
descriptions the resolver assigns the member at position `p` the `p`-th
output of `shorten` over the group's working descriptions. -/
theorem finalDesc_group_member {labels : List ALabel} {nm : String}
    (hg1 : (groupOf labels nm).length ≠ 1)
    (hpair : (groupOf labels nm).Pairwise (fun a b => a.description ≠ b.description))
    {p : Nat} (hp : p < (groupOf labels nm).length) :
    finalDesc labels ((groupOf labels nm).getD p default)
      = shortenAt ((groupOf labels nm).map (workingDesc false)) p := by
  have hmem : (groupOf labels nm).getD p default ∈ groupOf labels nm :=
    getD_mem _ default hp
  have hname : ((groupOf labels nm).getD p default).name = nm :=
    groupOf_name _ hmem
  have hmed : (((groupOf labels nm)).map (workingDesc false)).Pairwise
      (fun a b => a ≠ b) := pairwise_workingDesc groupOf_isSome hpair
  have hul : useLongDescriptions (groupOf labels nm) = false :=
    useLong_eq_false_of_pairwise hpair
  unfold finalDesc
  dsimp only
  rw [hname, if_neg hg1, hul]
  rw [uniqKeys_of_pairwise _ hmed]
  rw [if_neg (by simpa using hg1)]
  have hwd : workingDesc false ((groupOf labels nm).getD p default)
      = ((groupOf labels nm).map (workingDesc false)).getD p "" :=
    (getD_map (workingDesc false) (groupOf labels nm) default hp).symm
  rw [hwd, descIndexOf_getD _ p hmed (by simpa using hp)]
  exact shorten_getD (by simpa using hp)

theorem getD_eq_getElem2 {α : Type u} (L : List α) (d : α) {i : Nat}
    (h : i < L.length) : L.getD i d = L[i] := by
  rw [getD_eq_getElem_of_lt L d h]
  simp

/-- Second-pass working descriptions of a resolved group are exactly
the `shorten` outputs of the first pass. -/
theorem map_workingDesc_shortenTabLabels {labels : List ALabel} {nm : String}
    (hall : ∀ l ∈ labels, l.description.isSome)
    (hg1 : (groupOf labels nm).length ≠ 1)
    (hpair : (groupOf labels nm).Pairwise (fun a b => a.description ≠ b.description)) :
    (groupOf (shortenTabLabels labels) nm).map (workingDesc false)
      = shorten ((groupOf labels nm).map (workingDesc false)) := by
  rw [groupOf_shortenTabLabels labels nm hall, List.map_map]
  apply List.ext_getElem
  · simp [length_shorten]
  · intro q h1 h2
    rw [List.getElem_map]
    have hq : q < (groupOf labels nm).length := by simpa using h1
    have hqmem : (groupOf labels nm)[q] ∈ groupOf labels nm := List.getElem_mem _
    obtain ⟨d, hd⟩ := Option.isSome_iff_exists.mp (groupOf_isSome _ hqmem)
    show workingDesc false (resolveLabel labels ((groupOf labels nm)[q])) = _
    rw [resolveLabel_of_some labels hd]
    show finalDesc labels ((groupOf labels nm)[q]) = _
    rw [show ((groupOf labels nm))[q] = (groupOf labels nm).getD q default from
      (getD_eq_getElem2 _ default hq).symm]
    rw [finalDesc_group_member hg1 hpair hq]
    rw [show (shorten ((groupOf labels nm).map (workingDesc false)))[q]
        = (shorten ((groupOf labels nm).map (workingDesc false))).getD q "" from
      (getD_eq_getElem2 _ "" h2).symm]
    rw [shorten_getD (by simpa using hq)]

/-- Distinct working descriptions force distinct stored descriptions. -/
theorem pairwise_desc_of_workingDesc {g2 : List ALabel}
    (h : (g2.map (workingDesc false)).Pairwise (fun a b => a ≠ b)) :
    g2.Pairwise (fun a b => a.description ≠ b.description) := by
  rw [List.pairwise_map] at h
  refine List.Pairwise.imp_of_mem ?_ h
  intro a b _ _ hne heq
  apply hne
  unfold workingDesc
  simp only [Bool.false_eq_true, if_false]
  rw [heq]

/-! ### getLabelConfigFlags (lines 668-679) -/

inductive Verbosity where
  | SHORT
  | MEDIUM
  | LONG
deriving Repr, DecidableEq

structure LabelConfigFlags where
  verbosity : Verbosity
  shortenDuplicates : Bool
deriving Repr, DecidableEq

/-- Maps the `labelFormat` configuration string to verbosity flags. -/
def getLabelConfigFlags (value : String) : LabelConfigFlags :=
  match value with
  | "short" => ⟨Verbosity.SHORT, false⟩
  | "medium" => ⟨Verbosity.MEDIUM, false⟩
  | "long" => ⟨Verbosity.LONG, false⟩
  | _ => ⟨Verbosity.MEDIUM, true⟩

/-! ### Drop handling

Source: the tabs-container drop listener (lines 179-187) calls
`onDrop(e, this.group.count)`; `onDrop` (lines 897-926) clears the drop
feedback and, for a local move, calls
`sourceGroup.moveEditor(draggedEditor.editor, this.group, { index:
targetIndex })`, after which the host notifies this control whose
`moveEditor` splices the label array.
-/

structure TabsState where
  editors : List Nat
  tabLabels : List ALabel
  dropFeedback : Bool
deriving Repr, DecidableEq

/-- Modelled from the spec: the host group's `moveEditor` operation
(§6), which is not under `src/`.  Per §4.5 a move "remove[s] from
source, insert[s] at target" within the ordered document list. -/
def hostMoveEditor (editors : List Nat) (fromIndex targetIndex : Nat) : List Nat :=
  insertAt targetIndex (editors.getD fromIndex 0) (editors.eraseIdx fromIndex)

/-- A drop of a document of this same group onto the tab strip at
`targetIndex`, the dragged document sitting at `draggedIndex`: the drop
feedback is cleared, the host moves the document, and the label array is
spliced accordingly. -/
def onDrop (st : TabsState) (draggedIndex targetIndex : Nat) : TabsState :=
  { editors := hostMoveEditor st.editors draggedIndex targetIndex
    tabLabels := moveEditor st.tabLabels draggedIndex targetIndex
    dropFeedback := false }

/-! ### Claim theorems -/

/-- C1: with the suppress-reveal flag clear, `doLayout` with active-tab
offset `X`, width `W`, viewport `V` and scroll `S` sets the scroll
offset to `S + (X+W) - (S+V)` when `X+W > S+V` and `W ≤ V`, to `X` when
otherwise `S > X` or `W > V`, and leaves it unchanged otherwise. -/
theorem doLayout_reveal_scroll (X W V T : Nat) (st : ScrollState)
    (hblock : st.blockRevealActiveTab = false) :
    (st.scrollLeft + V < X + W ∧ W ≤ V →
      (doLayout (some (X, W)) V T st).scrollLeft
        = st.scrollLeft + (X + W) - (st.scrollLeft + V)) ∧
    (¬(st.scrollLeft + V < X + W ∧ W ≤ V) → X < st.scrollLeft ∨ V < W →
      (doLayout (some (X, W)) V T st).scrollLeft = X) ∧
    (¬(st.scrollLeft + V < X + W ∧ W ≤ V) → ¬(X < st.scrollLeft ∨ V < W) →
      (doLayout (some (X, W)) V T st).scrollLeft = st.scrollLeft) := by
  have hred : doLayout (some (X, W)) V T st =
      (if st.blockRevealActiveTab then ⟨st.scrollLeft, V, T, false⟩
      else if W ≤ V ∧ st.scrollLeft + V < X + W then
        ⟨st.scrollLeft + ((X + W) - (st.scrollLeft + V)), V, T, st.blockRevealActiveTab⟩
      else if X < st.scrollLeft ∨ ¬(W ≤ V) then ⟨X, V, T, st.blockRevealActiveTab⟩
      else ⟨st.scrollLeft, V, T, st.blockRevealActiveTab⟩) := rfl
  rw [hblock] at hred
  rw [if_neg Bool.false_ne_true] at hred
  refine ⟨fun h => ?_, fun h1 h2 => ?_, fun h1 h2 => ?_⟩ <;> rw [hred]
  · rw [if_pos ⟨h.2, h.1⟩]
    show st.scrollLeft + ((X + W) - (st.scrollLeft + V))
        = st.scrollLeft + (X + W) - (st.scrollLeft + V)
    omega
  · rw [if_neg (fun hc => h1 ⟨hc.2, hc.1⟩), if_pos (by omega)]
  · rw [if_neg (fun hc => h1 ⟨hc.2, hc.1⟩), if_neg (by omega)]

/-- C1 witness (the spec's worked example: `X=500`, `W=80`, `V=400`,
`S=50` lands in the right-overflow branch with new scroll `180`). -/
theorem doLayout_reveal_scroll_witness :
    (doLayout (some (500, 80)) 400 1000 ⟨50, 0, 0, false⟩).scrollLeft
      = 50 + (500 + 80) - (50 + 400) :=
  (doLayout_reveal_scroll 500 80 400 1000 ⟨50, 0, 0, false⟩ rfl).1 (by decide)

/-- C6: with the suppress-reveal-once flag set and an active tab
present, `doLayout` still pushes the recomputed scroll dimensions, then
clears the flag and leaves the scroll position unchanged. -/
theorem doLayout_blocked (X W V T : Nat) (st : ScrollState)
    (hblock : st.blockRevealActiveTab = true) :
    doLayout (some (X, W)) V T st =
      { st with width := V, scrollWidth := T, blockRevealActiveTab := false } := by
  unfold doLayout
  rw [hblock]
  simp

/-- C6 witness. -/
theorem doLayout_blocked_witness :
    doLayout (some (7, 3)) 11 13 ⟨2, 0, 0, true⟩
      = ⟨2, 11, 13, false⟩ :=
  doLayout_blocked 7 3 11 13 ⟨2, 0, 0, true⟩ rfl

/-- C7: splicing a tab label from `i` to `j` and then from `j` back to
`i` restores the original label ordering exactly. -/
theorem moveEditor_roundtrip (labels : List ALabel) (i j : Nat)
    (hi : i < labels.length) (hj : j < labels.length) :
    moveEditor (moveEditor labels i j) j i = labels :=
  moveEditor_moveEditor labels i j hi hj

/-- C7 witness. -/
theorem moveEditor_roundtrip_witness :
    moveEditor (moveEditor ([⟨0, "a", none, "", ""⟩, ⟨1, "b", none, "", ""⟩,
        ⟨2, "c", none, "", ""⟩] : List ALabel) 0 2) 2 0
      = ([⟨0, "a", none, "", ""⟩, ⟨1, "b", none, "", ""⟩,
        ⟨2, "c", none, "", ""⟩] : List ALabel) :=
  moveEditor_roundtrip _ 0 2 (by decide) (by decide)

/-- C5: dropping the document sitting at the group's last index onto the
tab strip at the final index mutates neither the document list nor the
tab labels; only the drop feedback is cleared. -/
theorem onDrop_last_noop (st : TabsState) (hne : st.editors ≠ [])
    (hlen : st.tabLabels.length = st.editors.length) :
    onDrop st (st.editors.length - 1) st.editors.length
      = { st with dropFeedback := false } := by
  have hpos : 1 ≤ st.editors.length := List.length_pos.mpr hne
  have hlne : st.tabLabels ≠ [] := by
    intro hc
    rw [hc] at hlen
    simp at hlen
    omega
  have hed : hostMoveEditor st.editors (st.editors.length - 1) st.editors.length
      = st.editors := by
    unfold hostMoveEditor
    rw [insertAt_of_length_le _ _ _
      (by rw [length_eraseIdx_lt st.editors _ (by omega)]; omega)]
    exact eraseIdx_last_append 0 st.editors hne
  have hlb : moveEditor st.tabLabels (st.editors.length - 1) st.editors.length
      = st.tabLabels := by
    unfold moveEditor
    rw [insertAt_of_length_le _ _ _
      (by rw [length_eraseIdx_lt st.tabLabels _ (by omega)]; omega)]
    rw [← hlen]
    exact eraseIdx_last_append default st.tabLabels hlne
  unfold onDrop
  rw [hed, hlb]

/-- C5 witness. -/
theorem onDrop_last_noop_witness :
    onDrop ⟨[10, 11], [⟨0, "a", none, "", ""⟩, ⟨1, "b", none, "", ""⟩], true⟩ 1 2
      = ⟨[10, 11], [⟨0, "a", none, "", ""⟩, ⟨1, "b", none, "", ""⟩], false⟩ :=
  onDrop_last_noop ⟨[10, 11], [⟨0, "a", none, "", ""⟩, ⟨1, "b", none, "", ""⟩], true⟩
    (by decide) (by decide)

/-- C8: the label-configuration mapping returns SHORT, MEDIUM and LONG
verbosity with `shortenDuplicates = false` for exactly the strings
`short`, `medium` and `long`, and MEDIUM with `shortenDuplicates = true`
for every other string. -/
theorem getLabelConfigFlags_spec :
    getLabelConfigFlags "short" = ⟨Verbosity.SHORT, false⟩ ∧
    getLabelConfigFlags "medium" = ⟨Verbosity.MEDIUM, false⟩ ∧
    getLabelConfigFlags "long" = ⟨Verbosity.LONG, false⟩ ∧
    ∀ s : String, s ≠ "short" → s ≠ "medium" → s ≠ "long" →
      getLabelConfigFlags s = ⟨Verbosity.MEDIUM, true⟩ := by
  refine ⟨by decide, by decide, by decide, ?_⟩
  intro s h1 h2 h3
  unfold getLabelConfigFlags
  split
  · exact absurd rfl h1
  · exact absurd rfl h2
  · exact absurd rfl h3
  · rfl

/-- C8 witness. -/
theorem getLabelConfigFlags_spec_witness :
    getLabelConfigFlags "unknown" = ⟨Verbosity.MEDIUM, true⟩ :=
  getLabelConfigFlags_spec.2.2.2 "unknown" (by decide) (by decide) (by decide)

/-- C9: the resolver preserves the label array's length and ordering
and never touches a label's editor reference, name, title (or long
description); only the description field is rewritten. -/
theorem shortenTabLabels_frame (labels : List ALabel) :
    (shortenTabLabels labels).length = labels.length ∧
    ∀ i, i < labels.length →
      ((shortenTabLabels labels).getD i default).editor
          = (labels.getD i default).editor ∧
      ((shortenTabLabels labels).getD i default).name
          = (labels.getD i default).name ∧
      ((shortenTabLabels labels).getD i default).title
          = (labels.getD i default).title ∧
      ((shortenTabLabels labels).getD i default).descriptionLong
          = (labels.getD i default).descriptionLong := by
  constructor
  · simp [shortenTabLabels]
  · intro i hi
    rw [shortenTabLabels_getD hi, resolveLabel_editor, resolveLabel_name,
      resolveLabel_title, resolveLabel_descriptionLong]
    exact ⟨rfl, rfl, rfl, rfl⟩

/-- C9 witness. -/
theorem shortenTabLabels_frame_witness :
    (shortenTabLabels [⟨7, "n", some "d", "L", "T"⟩]).length = 1 ∧
    ((shortenTabLabels [⟨7, "n", some "d", "L", "T"⟩]).getD 0 default).editor = 7 ∧
    ((shortenTabLabels [⟨7, "n", some "d", "L", "T"⟩]).getD 0 default).name = "n" ∧
    ((shortenTabLabels [⟨7, "n", some "d", "L", "T"⟩]).getD 0 default).title = "T" := by
  obtain ⟨h1, h2⟩ := shortenTabLabels_frame [⟨7, "n", some "d", "L", "T"⟩]
  obtain ⟨he, hn, ht, _⟩ := h2 0 (by decide)
  exact ⟨h1, he, hn, ht⟩

/-- C4: a label whose name occurs exactly once among the labels with
string descriptions ends the resolver run with an empty description. -/
theorem unique_name_clears_description (labels : List ALabel) (i : Nat)
    (hi : i < labels.length)
    (huniq : (groupOf labels (labels.getD i default).name).length = 1) :
    ((shortenTabLabels labels).getD i default).description = some "" := by
  rw [shortenTabLabels_getD hi]
  cases hd : (labels.getD i default).description with
  | none => rw [resolveLabel_of_none labels hd]
  | some d =>
      rw [resolveLabel_of_some labels hd]
      show some (finalDesc labels (labels.getD i default)) = some ""
      rw [finalDesc_of_singleton _ huniq]

/-- C4 witness. -/
theorem unique_name_clears_description_witness :
    ((shortenTabLabels [⟨0, "a", some "p/q", "L1", "T"⟩, ⟨1, "b", some "p/q", "L1", "T"⟩]).getD
        0 default).description = some "" :=
  unique_name_clears_description
    [⟨0, "a", some "p/q", "L1", "T"⟩, ⟨1, "b", some "p/q", "L1", "T"⟩] 0
    (by decide) (by decide)

/-- C2: in a name-group of two or more labels in which colliding medium
descriptions imply identical long descriptions and only one distinct
description value remains, the resolver clears every member's
description. -/
theorem indistinguishable_group_cleared (labels : List ALabel) (i : Nat)
    (hi : i < labels.length)
    (hsize : 2 ≤ (groupOf labels (labels.getD i default).name).length)
    (hcollide : ∀ m ∈ groupOf labels (labels.getD i default).name,
      ∀ m2 ∈ groupOf labels (labels.getD i default).name,
        m.description = m2.description → m.descriptionLong = m2.descriptionLong)
    (hone : (uniqKeys ((groupOf labels (labels.getD i default).name).map
        (fun m => m.description))).length = 1) :
    ((shortenTabLabels labels).getD i default).description = some "" := by
  have hconstd : ∀ m ∈ groupOf labels (labels.getD i default).name,
      ∀ m2 ∈ groupOf labels (labels.getD i default).name,
        m.description = m2.description := by
    intro m hm m2 hm2
    exact eq_of_uniqKeys_singleton hone _ (List.mem_map_of_mem _ hm)
      _ (List.mem_map_of_mem _ hm2)
  have hconstl : ∀ m ∈ groupOf labels (labels.getD i default).name,
      ∀ m2 ∈ groupOf labels (labels.getD i default).name,
        m.descriptionLong = m2.descriptionLong :=
    fun m hm m2 hm2 => hcollide m hm m2 hm2 (hconstd m hm m2 hm2)
  have hne : groupOf labels (labels.getD i default).name ≠ [] := by
    intro hcon
    rw [hcon] at hsize
    simp at hsize
  rw [shortenTabLabels_getD hi]
  cases hd : (labels.getD i default).description with
  | none => rw [resolveLabel_of_none labels hd]
  | some d =>
      rw [resolveLabel_of_some labels hd]
      show some (finalDesc labels (labels.getD i default)) = some ""
      rw [finalDesc_of_all_same _ hne hconstd hconstl]

/-- C2 witness: two same-named labels with equal medium and equal long
descriptions both end with an empty description. -/
theorem indistinguishable_group_cleared_witness :
    ((shortenTabLabels [⟨0, "f", some "m", "L", "T"⟩, ⟨1, "f", some "m", "L", "T"⟩]).getD
        0 default).description = some "" :=
  indistinguishable_group_cleared
    [⟨0, "f", some "m", "L", "T"⟩, ⟨1, "f", some "m", "L", "T"⟩] 0
    (by decide) (by decide) (by decide) (by decide)

/-- C10 counterexample: two labels enter the resolver with the same name
and the same string description, yet leave with different descriptions
(their long descriptions differ, so the group is re-partitioned by long
description). -/
theorem same_source_descriptions_diverge :
    (([⟨0, "f", some "m", "x", "t"⟩, ⟨1, "f", some "m", "y", "t"⟩] : List ALabel).getD
          0 default).name
        = (([⟨0, "f", some "m", "x", "t"⟩, ⟨1, "f", some "m", "y", "t"⟩] : List ALabel).getD
          1 default).name ∧
    (([⟨0, "f", some "m", "x", "t"⟩, ⟨1, "f", some "m", "y", "t"⟩] : List ALabel).getD
          0 default).description
        = (([⟨0, "f", some "m", "x", "t"⟩, ⟨1, "f", some "m", "y", "t"⟩] : List ALabel).getD
          1 default).description ∧
    (([⟨0, "f", some "m", "x", "t"⟩, ⟨1, "f", some "m", "y", "t"⟩] : List ALabel).getD
          0 default).description = some "m" ∧
    ((shortenTabLabels [⟨0, "f", some "m", "x", "t"⟩, ⟨1, "f", some "m", "y", "t"⟩]).getD
          0 default).description
        ≠ ((shortenTabLabels [⟨0, "f", some "m", "x", "t"⟩,
            ⟨1, "f", some "m", "y", "t"⟩]).getD 1 default).description := by
  refine ⟨rfl, rfl, rfl, ?_⟩
  decide

/-- C10 amended: two labels entering the resolver with the same name,
the same string description and the same long-verbosity description
leave with identical final descriptions. -/
theorem same_source_same_long_same_result (labels : List ALabel) (i j : Nat)
    (hi : i < labels.length) (hj : j < labels.length)
    (hname : (labels.getD i default).name = (labels.getD j default).name)
    (hdesc : (labels.getD i default).description = (labels.getD j default).description)
    (hsome : (labels.getD i default).description.isSome)
    (hlong : (labels.getD i default).descriptionLong
      = (labels.getD j default).descriptionLong) :
    ((shortenTabLabels labels).getD i default).description
      = ((shortenTabLabels labels).getD j default).description := by
  obtain ⟨d, hd⟩ := Option.isSome_iff_exists.mp hsome
  have hdj : (labels.getD j default).description = some d := hdesc ▸ hd
  rw [shortenTabLabels_getD hi, shortenTabLabels_getD hj,
    resolveLabel_of_some labels hd, resolveLabel_of_some labels hdj]
  show some (finalDesc labels (labels.getD i default))
      = some (finalDesc labels (labels.getD j default))
  congr 1
  have hwd : ∀ b, workingDesc b (labels.getD i default)
      = workingDesc b (labels.getD j default) := by
    intro b
    unfold workingDesc
    cases b
    · simp only [Bool.false_eq_true, if_false]
      rw [hdesc]
    · simp only [if_true]
      exact hlong
  unfold finalDesc
  dsimp only
  rw [hname, hwd]

/-- C10 amended witness. -/
theorem same_source_same_long_same_result_witness :
    ((shortenTabLabels [⟨0, "f", some "m", "x", "t"⟩, ⟨1, "f", some "m", "x", "t"⟩]).getD
        0 default).description
      = ((shortenTabLabels [⟨0, "f", some "m", "x", "t"⟩,
          ⟨1, "f", some "m", "x", "t"⟩]).getD 1 default).description :=
  same_source_same_long_same_result
    [⟨0, "f", some "m", "x", "t"⟩, ⟨1, "f", some "m", "x", "t"⟩] 0 1
    (by decide) (by decide) (by decide) (by decide) (by decide) (by decide)

/-- C3: on a label set whose medium descriptions are all present and
pairwise distinct (so name-groups are disambiguated by shortening), the
resolver is idempotent: a second run over its own output changes
nothing. -/
theorem shortenTabLabels_idempotent (labels : List ALabel)
    (hall : ∀ l ∈ labels, l.description.isSome)
    (hdist : labels.Pairwise (fun a b => a.description ≠ b.description)) :
    shortenTabLabels (shortenTabLabels labels) = shortenTabLabels labels := by
  have hmain : ∀ l ∈ labels,
      resolveLabel (shortenTabLabels labels) (resolveLabel labels l)
        = resolveLabel labels l := by
    intro l hl
    obtain ⟨d, hd⟩ := Option.isSome_iff_exists.mp (hall l hl)
    have hres : resolveLabel labels l
        = { l with description := some (finalDesc labels l) } :=
      resolveLabel_of_some labels hd
    have hres2 : resolveLabel (shortenTabLabels labels) (resolveLabel labels l)
        = { resolveLabel labels l with
            description := some (finalDesc (shortenTabLabels labels) (resolveLabel labels l)) } :=
      resolveLabel_of_some _ (by
        rw [hres])
    have hGroupPair : (groupOf labels l.name).Pairwise
        (fun a b => a.description ≠ b.description) :=
      List.Pairwise.sublist (List.filter_sublist labels) hdist
    have hkey : finalDesc (shortenTabLabels labels) (resolveLabel labels l)
        = finalDesc labels l := by
      have hmemg : l ∈ groupOf labels l.name := self_mem_groupOf hl (hall l hl)
      by_cases hg1 : (groupOf labels l.name).length = 1
      · have hname2 : (resolveLabel labels l).name = l.name := resolveLabel_name labels l
        have hg2 : (groupOf (shortenTabLabels labels)
            ((resolveLabel labels l).name)).length = 1 := by
          rw [hname2, groupOf_shortenTabLabels labels l.name hall]
          simpa using hg1
        rw [finalDesc_of_singleton _ hg2, finalDesc_of_singleton l hg1]
      · obtain ⟨⟨p, hp⟩, hpe⟩ := List.mem_iff_get.mp hmemg
        have hpl : (groupOf labels l.name).getD p default = l := by
          rw [getD_eq_getElem_of_lt _ default hp]
          exact hpe
        have hmed : ((groupOf labels l.name).map (workingDesc false)).Pairwise
            (fun a b => a ≠ b) := pairwise_workingDesc groupOf_isSome hGroupPair
        have hmap2 := map_workingDesc_shortenTabLabels hall hg1 hGroupPair
        have houtmed : ((groupOf (shortenTabLabels labels) l.name).map
            (workingDesc false)).Pairwise (fun a b => a ≠ b) := by
          rw [hmap2]
          exact shorten_pairwise hmed
        have houtpair := pairwise_desc_of_workingDesc houtmed
        have hg2len : (groupOf (shortenTabLabels labels) l.name).length
            = (groupOf labels l.name).length := by
          rw [groupOf_shortenTabLabels labels l.name hall]
          simp
        have hg2ne1 : (groupOf (shortenTabLabels labels) l.name).length ≠ 1 := by
          rw [hg2len]
          exact hg1
        have hp2 : p < (groupOf (shortenTabLabels labels) l.name).length := by
          rw [hg2len]
          exact hp
        have hpm2 : (groupOf (shortenTabLabels labels) l.name).getD p default
            = resolveLabel labels l := by
          rw [groupOf_shortenTabLabels labels l.name hall]
          rw [getD_eq_getElem2 _ default (by simpa using hp)]
          have hgp : (groupOf labels l.name)[p] = l := by
            rw [← getD_eq_getElem2 _ default hp]
            exact hpl
          rw [List.getElem_map, hgp]
        have h1 : finalDesc labels l
            = shortenAt ((groupOf labels l.name).map (workingDesc false)) p := by
          have h0 := finalDesc_group_member hg1 hGroupPair hp
          rw [hpl] at h0
          exact h0
        calc finalDesc (shortenTabLabels labels) (resolveLabel labels l)
            = finalDesc (shortenTabLabels labels)
                ((groupOf (shortenTabLabels labels) l.name).getD p default) := by
              rw [hpm2]
          _ = shortenAt ((groupOf (shortenTabLabels labels) l.name).map
                (workingDesc false)) p := by
              have := finalDesc_group_member hg2ne1 houtpair hp2
              rw [groupOf_shortenTabLabels labels l.name hall] at this ⊢
              exact this
          _ = shortenAt (shorten ((groupOf labels l.name).map (workingDesc false))) p := by
              rw [hmap2]
          _ = shortenAt ((groupOf labels l.name).map (workingDesc false)) p :=
              shortenAt_shorten (by simpa using hp)
          _ = finalDesc labels l := h1.symm
    rw [hres2, hkey, hres]
  calc shortenTabLabels (shortenTabLabels labels)
      = (labels.map (resolveLabel labels)).map
          (resolveLabel (shortenTabLabels labels)) := rfl
    _ = labels.map (resolveLabel labels) := by
        rw [List.map_map]
        apply List.map_congr_left
        intro l hl
        exact hmain l hl
    _ = shortenTabLabels labels := rfl

/-- C3 witness: two same-named labels with distinct path descriptions,
plus a uniquely named label, reach a fixed point after one pass. -/
theorem shortenTabLabels_idempotent_witness :
    shortenTabLabels (shortenTabLabels
        [⟨0, "f", some "aaa/bbb/file", "L1", "t"⟩,
         ⟨1, "f", some "aaa/ccc/file", "L2", "t"⟩,
         ⟨2, "g", some "zzz", "L3", "t"⟩])
      = shortenTabLabels
        [⟨0, "f", some "aaa/bbb/file", "L1", "t"⟩,
         ⟨1, "f", some "aaa/ccc/file", "L2", "t"⟩,
         ⟨2, "g", some "zzz", "L3", "t"⟩] :=
  shortenTabLabels_idempotent
    [⟨0, "f", some "aaa/bbb/file", "L1", "t"⟩,
     ⟨1, "f", some "aaa/ccc/file", "L2", "t"⟩,
     ⟨2, "g", some "zzz", "L3", "t"⟩]
    (by decide) (by decide)

end NextTabs
